import Mathlib

/-!
Verification development for the AD4858 DSP worker (`iio_reader.c`).

The definitions below are shallow embeddings of the C functions of the
worker: machine floats/doubles are idealized as exact rationals, fixed
C arrays with a live-length counter become a `List ℚ` plus a `ℕ` length,
and the interleaved row-major sample buffers become lists of channel rows.
-/

namespace IioReader

/-- The near-zero clamp constant `1e-12` used throughout the worker. -/
def eps : ℚ := 1 / 10 ^ 12

/-- Embedding of `polyval_f64(c, len, x)`: Horner evaluation
`r = 0; for i in 0..len: r = r*x + c[i]` reading only the first `len`
stored coefficients. -/
def polyval_f64 (c : List ℚ) (len : ℕ) (x : ℚ) : ℚ :=
  (List.range len).foldl (fun r i => r * x + c.getD i 0) 0

/-- The fields of `SignalParams` consumed by the Stage9 y-chain:
each coefficient array is a stored list plus its live length. -/
structure SignalParams where
  y1_num : List ℚ
  y1_num_len : ℕ
  y1_den : List ℚ
  y1_den_len : ℕ
  y2_coeffs : List ℚ
  y2_coeffs_len : ℕ
  y3_coeffs : List ℚ
  y3_coeffs_len : ℕ
  E : ℚ
  F : ℚ

/-- Embedding of the Stage9 per-sample computation in `main`:
`y1 = y1n / ((fabs(y1d) < 1e-12) ? 1e-12 : y1d)`, then the `y2`, `y3`
polynomials and the affine output `yt = E*y3 + F`.  Returns
`(y1, y2, y3, yt)`. -/
def ychain (P : SignalParams) (r : ℚ) : ℚ × ℚ × ℚ × ℚ :=
  let y1n := polyval_f64 P.y1_num P.y1_num_len r
  let y1d := polyval_f64 P.y1_den P.y1_den_len r
  let y1 := y1n / (if |y1d| < eps then eps else y1d)
  let y2 := polyval_f64 P.y2_coeffs P.y2_coeffs_len y1
  let y3 := polyval_f64 P.y3_coeffs P.y3_coeffs_len y2
  (y1, y2, y3, P.E * y3 + P.F)

/-- Concrete parameter record used to exhibit the dropped denominator
sign: the y1 denominator polynomial is the constant `-1/(2*10^12)`,
whose magnitude is below the clamp threshold and whose sign is negative. -/
def c1P : SignalParams :=
  ⟨[1], 1, [-(1 / (2 * 10 ^ 12))], 1, [1, 0], 2, [1, 0], 2, 1, 0⟩

/-- C1 counterexample: at `r = 0` the denominator evaluates to
`-1/(2*10^12)`, which is within the clamp band and negative, yet the code
divides by `+1e-12`, not by `sign(den) * 1e-12 = -1e-12` as the claim
states. -/
theorem c1_sign_counterexample :
    |polyval_f64 c1P.y1_den c1P.y1_den_len 0| < eps ∧
    polyval_f64 c1P.y1_den c1P.y1_den_len 0 < 0 ∧
    (ychain c1P 0).1 ≠ polyval_f64 c1P.y1_num c1P.y1_num_len 0 / (-eps) := by
  norm_num [ychain, polyval_f64, c1P, eps, List.range_succ, abs]

/-- C1 (amended): the near-zero protection at the y1 denominator
substitutes the magnitude `1e-12` WITHOUT preserving the sign: whenever
`|HornerDen(r)| < 1e-12`, `y1 = HornerNum(r) / 1e-12` with the positive
substitute, whatever the sign of the denominator. -/
theorem c1_y1_denominator_clamp (P : SignalParams) (r : ℚ)
    (h : |polyval_f64 P.y1_den P.y1_den_len r| < eps) :
    (ychain P r).1 = polyval_f64 P.y1_num P.y1_num_len r / eps := by
  simp only [ychain, if_pos h]

/-- C1 witness: the amended clamp law evaluated at the concrete
counterexample parameters. -/
theorem c1_y1_denominator_clamp_witness :
    (ychain c1P 0).1 = polyval_f64 c1P.y1_num c1P.y1_num_len 0 / eps :=
  c1_y1_denominator_clamp c1P 0
    (by norm_num [polyval_f64, c1P, eps, List.range_succ, abs])

/-- Horner evaluation reads only the entries with index below the live
length: two stored arrays agreeing below `len` evaluate equally. -/
theorem polyval_congr (len : ℕ) (a b : List ℚ) (x : ℚ)
    (h : ∀ i, i < len → a.getD i 0 = b.getD i 0) :
    polyval_f64 a len x = polyval_f64 b len x := by
  unfold polyval_f64
  induction len with
  | zero => rfl
  | succ n ih =>
      rw [List.range_succ, List.foldl_append, List.foldl_append]
      simp only [List.foldl_cons, List.foldl_nil]
      rw [ih (fun i hi => h i (Nat.lt_succ_of_lt hi)), h n (Nat.lt_succ_self n)]

/-- C10: the y-chain outputs depend only on the live coefficient
prefixes: two parameter records with the same live lengths, the same
array entries below those lengths, and the same `E` and `F` give equal
`(y1, y2, y3, yt)` at every input `r`.  Entries stored beyond a live
length (for instance left over after a hot-reload shrank the length)
never influence the output. -/
theorem c10_live_length_determines_ychain (P Q : SignalParams) (r : ℚ)
    (hn : P.y1_num_len = Q.y1_num_len)
    (hna : ∀ i, i < P.y1_num_len → P.y1_num.getD i 0 = Q.y1_num.getD i 0)
    (hd : P.y1_den_len = Q.y1_den_len)
    (hda : ∀ i, i < P.y1_den_len → P.y1_den.getD i 0 = Q.y1_den.getD i 0)
    (h2 : P.y2_coeffs_len = Q.y2_coeffs_len)
    (h2a : ∀ i, i < P.y2_coeffs_len → P.y2_coeffs.getD i 0 = Q.y2_coeffs.getD i 0)
    (h3 : P.y3_coeffs_len = Q.y3_coeffs_len)
    (h3a : ∀ i, i < P.y3_coeffs_len → P.y3_coeffs.getD i 0 = Q.y3_coeffs.getD i 0)
    (hE : P.E = Q.E) (hF : P.F = Q.F) :
    ychain P r = ychain Q r := by
  simp only [ychain]
  rw [polyval_congr P.y1_num_len P.y1_num Q.y1_num r hna, hn,
    polyval_congr P.y1_den_len P.y1_den Q.y1_den r hda, hd,
    polyval_congr P.y2_coeffs_len P.y2_coeffs Q.y2_coeffs _ h2a, h2,
    polyval_congr P.y3_coeffs_len P.y3_coeffs Q.y3_coeffs _ h3a, h3, hE, hF]

/-- First concrete record for the C10 witness: live lengths 2/2/2/2. -/
def c10P1 : SignalParams :=
  ⟨[2, 1], 2, [1, 3, 77], 2, [1, 0], 2, [1, 0, 44, 44], 2, 5, 6⟩

/-- Second concrete record for the C10 witness: same live prefixes as
`c10P1` but different junk entries beyond the live lengths. -/
def c10P2 : SignalParams :=
  ⟨[2, 1, 99], 2, [1, 3], 2, [1, 0, 123], 2, [1, 0], 2, 5, 6⟩

/-- C10 witness: the two records differ only beyond their live prefixes
and produce the same y-chain at `r = 1`. -/
theorem c10_live_length_determines_ychain_witness :
    ychain c10P1 1 = ychain c10P2 1 := by
  refine c10_live_length_determines_ychain c10P1 c10P2 1 rfl ?_ rfl ?_ rfl ?_ rfl ?_ rfl rfl <;>
    · intro i hi
      simp only [c10P1, c10P2] at hi ⊢
      interval_cases i <;> rfl

/-- Summing `f` over `List.range n` with a `foldl`, as the C accumulator
loop `acc = 0; for u: acc += f(u)` does, gives the finite sum. -/
theorem foldl_add_range (f : ℕ → ℚ) (n : ℕ) :
    (List.range n).foldl (fun a u => a + f u) 0 = ∑ u in Finset.range n, f u := by
  induction n with
  | zero => rfl
  | succ m ih =>
      rw [List.range_succ, List.foldl_append, Finset.sum_range_succ, ih]
      simp

/-- Indexing a map over `List.range n` below `n` recovers the mapped
function. -/
theorem getD_range_map {α : Type} (f : ℕ → α) (d : α) (n i : ℕ) (hi : i < n) :
    ((List.range n).map f).getD i d = f i := by
  rw [List.getD_eq_getElem?_getD, List.getElem?_map, List.getElem?_range hi]
  rfl

/-- Embedding of one output row of the TimeAverage step in `main`: for
each channel `c`, `acc = 0; for u in 0..decim: acc += combined[(o*decim+u)][c]`,
then `acc / decim`.  A row of the combined buffer is a list of channel
values. -/
def taOutRow (n_ch decim : ℕ) (combined : List (List ℚ)) (o : ℕ) : List ℚ :=
  (List.range n_ch).map fun c =>
    ((List.range decim).foldl
      (fun acc u => acc + (combined.getD (o * decim + u) []).getD c 0) 0) / decim

/-- Embedding of the whole TimeAverage step of `main` for one block:
the carry tail is concatenated with the current block, `n_ta = total / decim`
averaged rows are produced, and the trailing `total % decim` rows (the
rows from index `n_ta * decim` on) become the new carry tail. -/
def taBlock (n_ch decim : ℕ) (tail block : List (List ℚ)) :
    List (List ℚ) × List (List ℚ) :=
  let combined := tail ++ block
  let n_ta := combined.length / decim
  ((List.range n_ta).map (taOutRow n_ch decim combined),
   combined.drop (n_ta * decim))

/-- C2: for any carry tail shorter than `decim` entering the block and
any nonempty block, the new carry length equals
`(carry_len + block_samples) % decim`, hence lies in `[0, decim)`. -/
theorem c2_carry_invariant (n_ch decim : ℕ) (tail block : List (List ℚ))
    (hdec : 0 < decim) (htail : tail.length < decim) (hblock : 0 < block.length) :
    (taBlock n_ch decim tail block).2.length = (tail.length + block.length) % decim ∧
    (taBlock n_ch decim tail block).2.length < decim := by
  have hlen : (taBlock n_ch decim tail block).2.length =
      (tail.length + block.length) % decim := by
    simp only [taBlock, List.length_drop, List.length_append]
    exact Nat.sub_eq_of_eq_add (Nat.mod_add_div' _ _).symm
  exact ⟨hlen, hlen ▸ Nat.mod_lt _ hdec⟩

/-- C2 witness: tail of one row, block of three rows, `decim = 3`. -/
theorem c2_carry_invariant_witness :
    (taBlock 1 3 [[7]] [[8], [9], [10]]).2.length = (1 + 3) % 3 ∧
    (taBlock 1 3 [[7]] [[8], [9], [10]]).2.length < 3 :=
  c2_carry_invariant 1 3 [[7]] [[8], [9], [10]]
    (by norm_num) (by norm_num) (by norm_num)

/-- C4: each TimeAverager output row is the mean over `decim` consecutive
rows of the concatenated (tail ++ block) buffer; concretely, with
`decim = 3` and an empty tail, block `[1..7]` yields output means 2 and 5
with carry row `[7]`, and the next block `[8, 9, 10]` yields output mean
8 with carry row `[10]`. -/
theorem c4_timeAverager_means :
    (∀ (n_ch decim : ℕ) (tail block : List (List ℚ)) (o c : ℕ),
      o < (tail ++ block).length / decim → c < n_ch →
      ((taBlock n_ch decim tail block).1.getD o []).getD c 0 =
        (∑ u in Finset.range decim,
          ((tail ++ block).getD (o * decim + u) []).getD c 0) / decim) ∧
    taBlock 1 3 [] [[1], [2], [3], [4], [5], [6], [7]] = ([[2], [5]], [[7]]) ∧
    taBlock 1 3 [[7]] [[8], [9], [10]] = ([[8]], [[10]]) := by
  refine ⟨fun n_ch decim tail block o c ho hc => ?_, ?_, ?_⟩
  · simp only [taBlock]
    rw [getD_range_map _ _ _ _ ho, taOutRow, getD_range_map _ _ _ _ hc,
      foldl_add_range]
  · norm_num [taBlock, taOutRow, List.range_succ]
  · norm_num [taBlock, taOutRow, List.range_succ]

/-- C4 witness: the mean law instantiated on the first concrete block of
the scenario, output row 0, channel 0. -/
theorem c4_timeAverager_means_witness :
    ((taBlock 1 3 [] [[1], [2], [3], [4], [5], [6], [7]]).1.getD 0 []).getD 0 0 =
      (∑ u in Finset.range 3,
        ((([] ++ [[1], [2], [3], [4], [5], [6], [7]]) : List (List ℚ)).getD
          (0 * 3 + u) []).getD 0 0) / 3 :=
  c4_timeAverager_means.1 1 3 [] [[1], [2], [3], [4], [5], [6], [7]] 0 0
    (by norm_num) (by norm_num)

/-- The prefix sum `psum[n] = in[0] + ... + in[n-1]` equals the finite
sum of the first `n` entries. -/
theorem take_sum_eq (l : List ℚ) (n : ℕ) (hn : n ≤ l.length) :
    (l.take n).sum = ∑ j in Finset.range n, l.getD j 0 := by
  induction n with
  | zero => rfl
  | succ m ih =>
      have hm : m < l.length := hn
      rw [List.take_succ, List.sum_append, Finset.sum_range_succ,
        ih (Nat.le_of_lt hm)]
      rw [List.getElem?_eq_getElem hm]
      simp [List.getD_eq_getElem?_getD, List.getElem?_eq_getElem hm]

/-- The difference of two prefix sums is the sum of the slice between
them. -/
theorem take_sub_take (l : List ℚ) (s m : ℕ) (hsm : s ≤ m) :
    (l.take m).sum - (l.take s).sum = ((l.drop s).take (m - s)).sum := by
  conv_lhs =>
    rw [show m = s + (m - s) from (Nat.add_sub_cancel' hsm).symm, List.take_add,
      List.sum_append]
  ring

/-- Embedding of `moving_average_f32` from the worker (prefix-sum
implementation): for `N ≤ 1` the input is copied; otherwise each output
is `(psum[end+1] - psum[start]) / cnt` with the window clamped to
`[max(0, i-half), min(len-1, i+N-1-half)]` (natural subtraction performs
the clamp at 0). -/
def moving_average_f32 (input : List ℚ) (N : ℕ) : List ℚ :=
  if N ≤ 1 then input
  else
    (List.range input.length).map fun i =>
      let lo := i - N / 2
      let hi := min (input.length - 1) (i + (N - 1 - N / 2))
      let cnt := hi - lo + 1
      ((input.take (hi + 1)).sum - (input.take lo).sum) / cnt

/-- Embedding of `moving_average_f32` from the earlier revision of the
worker (direct per-window summation): same clamped window and count, but
each window is summed directly with `acc += in[start + j]`. -/
def moving_average_direct (input : List ℚ) (N : ℕ) : List ℚ :=
  if N ≤ 1 then input
  else
    (List.range input.length).map fun i =>
      let lo := i - N / 2
      let hi := min (input.length - 1) (i + (N - 1 - N / 2))
      let cnt := hi - lo + 1
      ((input.drop lo).take cnt).sum / cnt

/-- C5: with `W ≤ 1` the smoother is the identity; with `W > 1` output
`i` is the sum of the inputs over the clamped index range
`[max(0, i - W/2), min(len-1, i + W - 1 - W/2)]` divided by the actual
number of indices in that range. -/
theorem c5_smoother_window (input : List ℚ) (W : ℕ) :
    (W ≤ 1 → moving_average_f32 input W = input) ∧
    (1 < W → ∀ i, i < input.length →
      (moving_average_f32 input W).getD i 0 =
        (∑ j in Finset.Icc (i - W / 2)
            (min (input.length - 1) (i + (W - 1) - W / 2)), input.getD j 0) /
          ((min (input.length - 1) (i + (W - 1) - W / 2) - (i - W / 2) + 1 : ℕ) : ℚ)) := by
  constructor
  · intro h
    simp [moving_average_f32, h]
  · intro hW i hi
    have hW2 : ¬ W ≤ 1 := by omega
    have harg : i + (W - 1 - W / 2) = i + (W - 1) - W / 2 := by omega
    have hie : i ≤ min (input.length - 1) (i + (W - 1 - W / 2)) := by
      refine le_min (by omega) (Nat.le_add_right i _)
    have hse : i - W / 2 ≤ min (input.length - 1) (i + (W - 1 - W / 2)) :=
      le_trans (Nat.sub_le i _) hie
    have helen : min (input.length - 1) (i + (W - 1 - W / 2)) < input.length :=
      lt_of_le_of_lt (min_le_left _ _) (by omega)
    simp only [moving_average_f32, if_neg hW2]
    rw [getD_range_map _ _ _ _ hi]
    rw [take_sum_eq _ _ helen, take_sum_eq _ _ (le_of_lt (lt_of_le_of_lt hse helen)),
      ← Finset.sum_Ico_eq_sub _ (le_trans hse (Nat.le_succ_of_le le_rfl)),
      Nat.Ico_succ_right, harg]

/-- C5 witness: `W = 5` on input `[0, 10, 0, 0, 0, 0, 0, 0]`, index 0:
window clamps to indices 0..2, count 3, output 10/3. -/
theorem c5_smoother_window_witness :
    (moving_average_f32 [0, 10, 0, 0, 0, 0, 0, 0] 5).getD 0 0 =
      (∑ j in Finset.Icc (0 - 5 / 2)
          (min (([0, 10, 0, 0, 0, 0, 0, 0] : List ℚ).length - 1) (0 + (5 - 1) - 5 / 2)),
        ([0, 10, 0, 0, 0, 0, 0, 0] : List ℚ).getD j 0) /
        ((min (([0, 10, 0, 0, 0, 0, 0, 0] : List ℚ).length - 1) (0 + (5 - 1) - 5 / 2)
          - (0 - 5 / 2) + 1 : ℕ) : ℚ) :=
  (c5_smoother_window [0, 10, 0, 0, 0, 0, 0, 0] 5).2 (by norm_num) 0 (by norm_num)

/-- C9: the prefix-sum implementation and the direct per-window summation
implementation of the centered moving average agree on every input,
length and window size when the accumulation arithmetic is exact. -/
theorem c9_psum_refines_direct (input : List ℚ) (W : ℕ) :
    moving_average_f32 input W = moving_average_direct input W := by
  by_cases hW : W ≤ 1
  · simp [moving_average_f32, moving_average_direct, hW]
  · simp only [moving_average_f32, moving_average_direct, if_neg hW]
    refine List.map_congr_left fun i hmem => ?_
    rw [List.mem_range] at hmem
    have hie : i ≤ min (input.length - 1) (i + (W - 1 - W / 2)) :=
      le_min (by omega) (Nat.le_add_right i _)
    have hse : i - W / 2 ≤ min (input.length - 1) (i + (W - 1 - W / 2)) :=
      le_trans (Nat.sub_le i _) hie
    rw [take_sub_take _ _ _ (le_trans hse (Nat.le_succ _))]
    have hcnt : min (input.length - 1) (i + (W - 1 - W / 2)) + 1 - (i - W / 2) =
        min (input.length - 1) (i + (W - 1 - W / 2)) - (i - W / 2) + 1 := by
      omega
    rw [hcnt]

/-- Coefficients of one biquad SOS section `(b0, b1, b2, a1, a2)`, with
`a0` assumed 1 as in the C tables. -/
structure Biquad where
  b0 : ℚ
  b1 : ℚ
  b2 : ℚ
  a1 : ℚ
  a2 : ℚ

/-- One DF2T update of `sos_df2t_inplace`:
`y = b0*x + z1; z1 = b1*x - a1*y + z2; z2 = b2*x - a2*y`.  Returns the
new `(z1, z2)` state and the output sample. -/
def df2tStep (c : Biquad) (st : ℚ × ℚ) (x : ℚ) : (ℚ × ℚ) × ℚ :=
  let y := c.b0 * x + st.1
  ((c.b1 * x - c.a1 * y + st.2, c.b2 * x - c.a2 * y), y)

/-- The inner sample loop of `sos_df2t_inplace` for one section: the
state threads through the samples and every output is collected. -/
def df2tSection (c : Biquad) : (ℚ × ℚ) → List ℚ → (ℚ × ℚ) × List ℚ
  | st, [] => (st, [])
  | st, x :: xs =>
      let r := df2tStep c st x
      let rest := df2tSection c r.1 xs
      (rest.1, r.2 :: rest.2)

/-- Embedding of `sos_df2t_inplace`: the buffer is passed through the
sections in order, each section starting from its own persistent state;
the per-section final states are returned alongside the output buffer. -/
def sos_df2t_inplace : List Biquad → List (ℚ × ℚ) → List ℚ → List (ℚ × ℚ) × List ℚ
  | [], _, xs => ([], xs)
  | c :: cs, sts, xs =>
      let r := df2tSection c (sts.headD (0, 0)) xs
      let rest := sos_df2t_inplace cs sts.tail r.2
      (r.1 :: rest.1, rest.2)

/-- One section is block-splittable: running the sample loop over a
concatenation equals running it over the first part and continuing from
the carried state. -/
theorem df2tSection_append (c : Biquad) (st : ℚ × ℚ) (xs ys : List ℚ) :
    df2tSection c st (xs ++ ys) =
      ((df2tSection c (df2tSection c st xs).1 ys).1,
       (df2tSection c st xs).2 ++ (df2tSection c (df2tSection c st xs).1 ys).2) := by
  induction xs generalizing st with
  | nil => simp [df2tSection]
  | cons x xs ih => simp [df2tSection, ih]

/-- C6: because the `(z1, z2)` state of every section is carried over
between blocks, filtering two consecutive blocks in sequence produces
exactly the same outputs (and final states) as filtering their
concatenation as one block: the output is continuous at block
boundaries. -/
theorem c6_state_continuity (sos : List Biquad) (sts : List (ℚ × ℚ))
    (xs ys : List ℚ) :
    sos_df2t_inplace sos sts (xs ++ ys) =
      ((sos_df2t_inplace sos (sos_df2t_inplace sos sts xs).1 ys).1,
       (sos_df2t_inplace sos sts xs).2 ++
         (sos_df2t_inplace sos (sos_df2t_inplace sos sts xs).1 ys).2) := by
  induction sos generalizing sts xs ys with
  | nil => simp [sos_df2t_inplace]
  | cons c cs ih =>
      simp only [sos_df2t_inplace, df2tSection_append, List.headD_cons,
        List.tail_cons]
      rw [ih]

/-- A typed output frame: one frame-type byte, the `{n_samp, n_ch}`
header and the float payload. -/
structure Frame where
  frame_type : ℕ
  n_samp : ℕ
  n_ch : ℕ
  payload : List ℚ
deriving DecidableEq

/-- Frame type code 1 (Stage3, 8 channels). -/
def FT_STAGE3_8CH : ℕ := 1

/-- Frame type code 2 (Stage5 Ravg, 4 channels). -/
def FT_STAGE5_4CH : ℕ := 2

/-- Frame type code 3 (Stage9 yt, 4 channels). -/
def FT_STAGE9_YT4 : ℕ := 3

/-- Frame type code 4 (Stage7 y2, 4 channels). -/
def FT_STAGE7_Y2 : ℕ := 4

/-- Frame type code 5 (Stage8 y3, 4 channels). -/
def FT_STAGE8_Y3 : ℕ := 5

/-- Embedding of the frame-emission sequence of one main-loop
iteration: the Stage3 emit sits in its own `if (n_ta > 0)` block, and a
second `if (n_ta > 0)` block emits Stage5, Stage7, Stage8 and Stage9 in
source order. -/
def emitBlockFrames (n_ta : ℕ) (ta s5 y2 y3 yt : List ℚ) : List Frame :=
  (if 0 < n_ta then [⟨FT_STAGE3_8CH, n_ta, 8, ta⟩] else []) ++
  (if 0 < n_ta then
    [⟨FT_STAGE5_4CH, n_ta, 4, s5⟩,
     ⟨FT_STAGE7_Y2, n_ta, 4, y2⟩,
     ⟨FT_STAGE8_Y3, n_ta, 4, y3⟩,
     ⟨FT_STAGE9_YT4, n_ta, 4, yt⟩]
   else [])

/-- C3: when `n_out > 0`, exactly one frame of each type is written, in
the order Stage3 (type 1, 8 channels), Stage5 (type 2, 4 channels),
Stage7 (type 4), Stage8 (type 5), Stage9 (type 3); when `n_out = 0` no
frame is written for the block. -/
theorem c3_frame_order (n_ta : ℕ) (ta s5 y2 y3 yt : List ℚ) :
    (0 < n_ta → emitBlockFrames n_ta ta s5 y2 y3 yt =
      [⟨FT_STAGE3_8CH, n_ta, 8, ta⟩,
       ⟨FT_STAGE5_4CH, n_ta, 4, s5⟩,
       ⟨FT_STAGE7_Y2, n_ta, 4, y2⟩,
       ⟨FT_STAGE8_Y3, n_ta, 4, y3⟩,
       ⟨FT_STAGE9_YT4, n_ta, 4, yt⟩]) ∧
    (n_ta = 0 → emitBlockFrames n_ta ta s5 y2 y3 yt = []) := by
  constructor <;> intro h <;> simp [emitBlockFrames, h]

/-- C3 witness: one decimated row with empty payload stubs. -/
theorem c3_frame_order_witness :
    emitBlockFrames 1 [] [] [] [] [] =
      [⟨FT_STAGE3_8CH, 1, 8, []⟩,
       ⟨FT_STAGE5_4CH, 1, 4, []⟩,
       ⟨FT_STAGE7_Y2, 1, 4, []⟩,
       ⟨FT_STAGE8_Y3, 1, 4, []⟩,
       ⟨FT_STAGE9_YT4, 1, 4, []⟩] :=
  (c3_frame_order 1 [] [] [] [] []).1 (by norm_num)

/-- Embedding of the token loop of `parse_coeffs_from_string`: tokens
are consumed `while (token != NULL && count < max_len)`, each consumed
token is stored and counted.  The comma-separated string is abstracted
as its list of decimal tokens. -/
def parse_tokens : List ℚ → ℕ → ℕ → List ℚ × ℕ
  | [], _, count => ([], count)
  | t :: ts, max_len, count =>
      if count < max_len then
        let r := parse_tokens ts max_len (count + 1)
        (t :: r.1, r.2)
      else ([], count)

/-- Embedding of `parse_coeffs_from_string(str, target, max_len, len)`:
returns the stored coefficients and the final count. -/
def parse_coeffs_from_string (vals : List ℚ) (max_len : ℕ) : List ℚ × ℕ :=
  parse_tokens vals max_len 0

/-- Embedding of the `yt_coeffs` branch of `check_and_process_stdin`:
parse at most two entries into `temp`, and set `(E, F)` only when the
resulting count equals 2. -/
def yt_coeffs_update (E F : ℚ) (vals : List ℚ) : ℚ × ℚ :=
  let r := parse_coeffs_from_string vals 2
  if r.2 = 2 then (r.1.getD 0 0, r.1.getD 1 0) else (E, F)

/-- C7 counterexample: a `yt_coeffs` list with three entries does NOT
leave `E` and `F` unchanged — the parse loop stops after two tokens, the
count equals 2, and `(E, F)` becomes the first two entries `(1, 2)`,
not the previous `(5, 6)`. -/
theorem c7_three_entries_counterexample :
    yt_coeffs_update 5 6 [1, 2, 3] = (1, 2) ∧
    ((1 : ℚ), (2 : ℚ)) ≠ ((5 : ℚ), (6 : ℚ)) := by
  constructor
  · norm_num [yt_coeffs_update, parse_coeffs_from_string, parse_tokens]
  · norm_num

/-- C7 (amended): `E` and `F` are set if and only if the value list has
at least two entries, in which case they become the first two entries
(any further entries are discarded); with zero or one entry they are
unchanged. -/
theorem c7_yt_coeffs_update (E F : ℚ) (vals : List ℚ) :
    yt_coeffs_update E F vals =
      if 2 ≤ vals.length then (vals.getD 0 0, vals.getD 1 0) else (E, F) := by
  match vals with
  | [] => simp [yt_coeffs_update, parse_coeffs_from_string, parse_tokens]
  | [a] => simp [yt_coeffs_update, parse_coeffs_from_string, parse_tokens]
  | a :: b :: rest =>
      have hr : parse_tokens rest 2 2 = ([], 2) := by
        cases rest <;> simp [parse_tokens]
      simp [yt_coeffs_update, parse_coeffs_from_string, parse_tokens, hr]

/-- Outcome of the `strncmp` id tests applied to an IIO channel id:
`voltage` when the id starts with "voltage", `timestamp` when it starts
with "timestamp", `other` otherwise. -/
inductive ChanKind
  | voltage
  | timestamp
  | other
deriving DecidableEq

/-- The channel attributes the two scan loops inspect. -/
structure IioChan where
  is_output : Bool
  is_scan_element : Bool
  kind : ChanKind
deriving DecidableEq

/-- Embedding of the channel scan of the worker `main`: a channel is
kept whenever it exists and is not an output channel — the id and the
scan-element flag are never inspected. -/
def worker_scan (chans : List IioChan) : List IioChan :=
  chans.filter fun ch => !ch.is_output

/-- Embedding of the worker initialization outcome: exit status 5 when
fewer than 8 input channels were kept, otherwise the pipeline uses the
first 8 kept channels (`n_ch = 8`). -/
def worker_select (chans : List IioChan) : Except ℕ (List IioChan) :=
  let ins := worker_scan chans
  if ins.length < 8 then Except.error 5 else Except.ok (ins.take 8)

/-- Embedding of the channel scan of the test utility
`iio_reader_test.c`: input scan-element channels whose id is not a
timestamp and starts with "voltage". -/
def test_scan (chans : List IioChan) : List IioChan :=
  chans.filter fun ch =>
    !ch.is_output && ch.is_scan_element &&
      !(decide (ch.kind = ChanKind.timestamp)) && decide (ch.kind = ChanKind.voltage)

/-- A device channel list with a timestamp input scan channel first,
followed by seven voltage channels. -/
def c8chans : List IioChan :=
  ⟨false, true, ChanKind.timestamp⟩ :: List.replicate 7 ⟨false, true, ChanKind.voltage⟩

/-- C8 counterexample: on `c8chans` only seven voltage channels exist,
yet worker initialization succeeds (it never exits with a nonzero
status) and the timestamp channel is among the eight channels the
pipeline uses, contradicting both halves of the claim. -/
theorem c8_timestamp_selected_counterexample :
    worker_select c8chans =
      Except.ok (⟨false, true, ChanKind.timestamp⟩ ::
        List.replicate 7 ⟨false, true, ChanKind.voltage⟩) ∧
    (c8chans.filter fun ch => decide (ch.kind = ChanKind.voltage)).length = 7 ∧
    (⟨false, true, ChanKind.timestamp⟩ : IioChan) ∈
      (worker_select c8chans).toOption.getD [] := by
  refine ⟨rfl, rfl, List.Mem.head _⟩

/-- C8 (amended): the worker keeps every non-output channel without
inspecting its id, fails with exit status 5 exactly when fewer than
eight such channels exist, and otherwise uses the first eight of them —
whatever their kind.  The voltage/timestamp filtering named by the claim
exists only in the separate test utility, whose scan keeps voltage
channels only. -/
theorem c8_worker_channel_selection (chans : List IioChan) :
    ((worker_scan chans).length < 8 → worker_select chans = Except.error 5) ∧
    (8 ≤ (worker_scan chans).length →
      worker_select chans = Except.ok ((chans.filter fun ch => !ch.is_output).take 8)) ∧
    (∀ ch ∈ test_scan chans, ch.kind = ChanKind.voltage) := by
  refine ⟨fun h => ?_, fun h => ?_, fun ch hch => ?_⟩
  · simp only [worker_select]
    rw [if_pos h]
  · simp only [worker_select]
    rw [if_neg (Nat.not_lt.mpr h)]
    rfl
  · simp only [test_scan, List.mem_filter, Bool.and_eq_true,
      decide_eq_true_eq] at hch
    exact hch.2.2

/-- C8 witness: the amended selection law evaluated on the concrete
channel list `c8chans` (eight non-output channels). -/
theorem c8_worker_channel_selection_witness :
    worker_select c8chans =
      Except.ok ((c8chans.filter fun ch => !ch.is_output).take 8) :=
  (c8_worker_channel_selection c8chans).2.1 (by decide)

end IioReader
